import Mathlib

/-!
Verification of the task-graph execution model taught by the dask-workshop
notebooks (`01-dask.delayed.ipynb`, `03-schedulers-and-efficiency.ipynb`).

The notebooks only *invoke* the external library's deferred-execution
machinery (`dask.delayed`, `.compute()`, the four schedulers, `persist`,
`repartition`); that machinery is not part of this repository's sources,
so it is modelled here from the specification's data model: a graph is a
finite list of task nodes, each identified by a function reference and a
list of arguments, an argument being either a constant or a reference to
an earlier task node.  Executors are schedules that walk the graph.

The functions the notebooks themselves define (`inc`, `add`, `double`,
`iseven`, the sequential spread loop) are translated directly from the
notebook cells.
-/

namespace DaskWorkshop

/-- Modelled from the spec: an argument of a task node is either a plain
constant or a reference (dependency edge) to another task node, named by
its key. -/
inductive Term (V : Type) where
  | const (v : V)
  | ref (k : Nat)
deriving DecidableEq

/-- Modelled from the spec: a task node is "identified by a function
reference and its arguments (which may themselves be task nodes)". -/
structure TaskSpec (V F : Type) where
  fn : F
  args : List (Term V)
deriving DecidableEq

/-- Modelled from the spec: a task graph is a finite collection of task
nodes; node `i` of the list has key `i`. -/
abbrev Graph (V F : Type) := List (TaskSpec V F)

/-- A term is below `i` when any node it references has key `< i`. -/
def termBelowB (i : Nat) : Term V → Bool
  | .const _ => true
  | .ref k => decide (k < i)

/-- Well-formedness check from position `i` on: every node's references
point strictly below the node's own key. -/
def wfFrom : Nat → Graph V F → Bool
  | _, [] => true
  | i, e :: g => e.args.all (termBelowB i) && wfFrom (i + 1) g

/-- A graph is well formed when every dependency edge points to an
earlier key. -/
def wfB (g : Graph V F) : Bool := wfFrom 0 g

/-- Value of a term given the list of already-computed node values. -/
def termValWith (dflt : V) (prev : List V) : Term V → V
  | .const v => v
  | .ref j => prev.getD j dflt

/-- Reference denotation of the first `n` nodes of a graph, in key
order: the result values of the spec's "Result" entity, independent of
any executor. -/
def denoteAux (ap : F → List V → V) (dflt : V) (g : Graph V F) : Nat → List V
  | 0 => []
  | n + 1 =>
    let prev := denoteAux ap dflt g n
    match g[n]? with
    | none => prev
    | some e => prev ++ [ap e.fn (e.args.map (termValWith dflt prev))]

/-- The logical value of node `k` of the graph. -/
def resultAt (ap : F → List V → V) (dflt : V) (g : Graph V F) (k : Nat) : V :=
  (denoteAux ap dflt g (k + 1)).getD k dflt

/-- The logical value of a term in a graph. -/
def resultTermAt (ap : F → List V → V) (dflt : V) (g : Graph V F) : Term V → V
  | .const v => v
  | .ref j => resultAt ap dflt g j

/-- Look a term's value up in an executor's finished-task store. -/
def lookupSt (st : List (Nat × V)) : Term V → Option V
  | .const v => some v
  | .ref j => st.lookup j

/-- Look up every argument of a task; fails when a dependency has not
finished yet. -/
def mapTerms (st : List (Nat × V)) : List (Term V) → Option (List V)
  | [] => some []
  | t :: ts =>
    match lookupSt st t, mapTerms st ts with
    | some v, some vs => some (v :: vs)
    | _, _ => none

/-- Modelled from the spec: an executor walks the recorded graph along a
schedule `ks`, computing each scheduled node from the finished values of
its dependencies; it fails if a scheduled node is missing or one of its
dependencies has not completed. -/
def runSched (ap : F → List V → V) (g : Graph V F) :
    List Nat → List (Nat × V) → Option (List (Nat × V))
  | [], st => some st
  | k :: ks, st =>
    match g[k]? with
    | none => none
    | some e =>
      match mapTerms st e.args with
      | none => none
      | some vals => runSched ap g ks ((k, ap e.fn vals) :: st)

/-- A term is ready when every node it references is finished. -/
def termReady (done : List Nat) : Term V → Bool
  | .const _ => true
  | .ref j => done.contains j

/-- The argument list of node `k` of the graph. -/
def argsOf (g : Graph V F) (k : Nat) : List (Term V) :=
  (g[k]?.map TaskSpec.args).getD []

/-- A schedule respects dependencies (given the initially finished keys
`done`): every scheduled node's references are finished before it runs.
This is the spec's invariant "no task executes before all of its
dependency nodes have completed". -/
def depsOkFromB (g : Graph V F) : List Nat → List Nat → Bool
  | _, [] => true
  | done, k :: ks =>
    (argsOf g k).all (termReady done) && depsOkFromB g (k :: done) ks

/-- Run a schedule from an empty store: one full executor pass. -/
def execSched (ap : F → List V → V) (g : Graph V F) (ks : List Nat) :
    Option (List (Nat × V)) :=
  runSched ap g ks []

/-- The logical output of an executor pass: the value produced for each
node key of the graph, in key order. -/
def outputs (ap : F → List V → V) (g : Graph V F) (ks : List Nat) :
    List (Option V) :=
  (List.range g.length).map fun k =>
    (execSched ap g ks).bind fun st => st.lookup k

/-- Modelled from the spec: the synchronous single-thread scheduler
(`dask.async.get_sync`) walks the nodes one by one in key order. -/
def syncSched (g : Graph V F) : List Nat := List.range g.length

/-- Keys whose dependencies are all finished but which have not run. -/
def ready (g : Graph V F) (done : List Nat) : List Nat :=
  (List.range g.length).filter fun k =>
    !done.contains k && (argsOf g k).all (termReady done)

/-- Modelled from the spec: a pool-style scheduler runs in rounds; each
round executes every ready node, the order within a round depending on
the backend (`p` permutes the ready list). -/
def roundsSched (g : Graph V F) (p : List Nat → List Nat) :
    Nat → List Nat → List Nat
  | 0, _ => []
  | fuel + 1, done =>
    let r := p (ready g done)
    r ++ roundsSched g p fuel (r ++ done)

/-- The local thread-pool scheduler (`dask.threaded.get`): rounds of
ready tasks in key order. -/
def threadSched (g : Graph V F) : List Nat :=
  roundsSched g id g.length []

/-- The local process-pool scheduler (`dask.multiprocessing.get`):
rounds of ready tasks, completing in a different order. -/
def processSched (g : Graph V F) : List Nat :=
  roundsSched g List.reverse g.length []

/-- The distributed-cluster scheduler (`client.get`): rounds of ready
tasks, completing in yet another order. -/
def distributedSched (g : Graph V F) : List Nat :=
  roundsSched g (fun l => l.rotate 1) g.length []

/-- Modelled from the spec: calling the deferred-execution wrapper
(`dask.delayed(f)(args)`) records one new task node at the next free key
and returns a reference to it; nothing is executed. -/
def delayedCall (f : F) (args : List (Term V)) (g : Graph V F) :
    Term V × Graph V F :=
  (Term.ref g.length, g ++ [⟨f, args⟩])

/-- An expression over wrapped function calls, as built by nesting
`dask.delayed(f)(...)` calls in the notebook (`z`, `total`, ...). -/
inductive Expr (V F : Type) where
  | lit (v : V)
  | app (f : F) (args : List (Expr V F))

mutual

/-- Direct (eager, sequential) evaluation of an expression: what the
plain un-delayed notebook code computes. -/
def evalExpr (ap : F → List V → V) : Expr V F → V
  | .lit v => v
  | .app f args => ap f (evalList ap args)

def evalList (ap : F → List V → V) : List (Expr V F) → List V
  | [] => []
  | e :: es => evalExpr ap e :: evalList ap es

end

mutual

/-- Compile an expression into graph nodes via `delayedCall`: the
deferred version of the program. -/
def compileExpr : Expr V F → Graph V F → Term V × Graph V F
  | .lit v, g => (Term.const v, g)
  | .app f args, g =>
    let q := compileList args g
    delayedCall f q.1 q.2

def compileList : List (Expr V F) → Graph V F → List (Term V) × Graph V F
  | [], g => ([], g)
  | e :: es, g =>
    let p := compileExpr e g
    let q := compileList es p.2
    (p.1 :: q.1, q.2)

end

/-- A value together with the seconds slept while producing it: the only
effect the notebook's task functions have besides returning. -/
structure Timed (α : Type) where
  val : α
  secs : Nat
deriving DecidableEq

/-- `time.sleep`: elapses `n` seconds and returns nothing. -/
def sleep (n : Nat) : Timed Unit := ⟨(), n⟩

/-- Notebook 01: `def inc(x): sleep(1); return x + 1`. -/
def inc (x : Int) : Timed Int := ⟨x + 1, (sleep 1).secs⟩

/-- Notebook 01: `def add(x, y): sleep(1); return x + y`. -/
def add (x y : Int) : Timed Int := ⟨x + y, (sleep 1).secs⟩

/-- Notebook 01: `def double(x): sleep(1); return 2 * x`. -/
def double (x : Int) : Timed Int := ⟨2 * x, (sleep 1).secs⟩

/-- Notebook 01: `def iseven(x): return x % 2 == 0` (no sleep). -/
def iseven (x : Int) : Bool := x % 2 == 0

/-- The function references wrapped by `dask.delayed` in notebook 01. -/
inductive Fn where
  | finc
  | fadd
  | fdouble
  | fsum
deriving DecidableEq

/-- Interpretation of a function reference on its argument values. -/
def applyFn : Fn → List Int → Int
  | .finc, [x] => (inc x).val
  | .fadd, [x, y] => (add x y).val
  | .fdouble, [x] => (double x).val
  | .fsum, xs => xs.sum
  | _, _ => 0

/-- Notebook 01: `x = delayed(inc)(1); y = delayed(inc)(2);
z = delayed(add)(x, y)` as an expression over wrapped calls. -/
def zExpr : Expr Int Fn :=
  .app .fadd [.app .finc [.lit 1], .app .finc [.lit 2]]

/-- The task graph recorded for `z`: two `inc` nodes then the `add`
node depending on both. -/
def zGraph : Graph Int Fn :=
  [⟨.finc, [.const 1]⟩, ⟨.finc, [.const 2]⟩, ⟨.fadd, [.ref 0, .ref 1]⟩]

/-- Notebook 01: `data = [1, 2, 3, 4, 5, 6, 7, 8]`. -/
def data : List Int := [1, 2, 3, 4, 5, 6, 7, 8]

/-- Notebook 01 for-loop exercise: delay `inc` on every element of
`data`, then delay `sum` over the results. -/
def totalExpr : Expr Int Fn :=
  .app .fsum (data.map fun x => .app .finc [.lit x])

/-- `.compute()`: trigger execution of a built graph on the default
local thread pool and read off the value of the output term. -/
def computeDelayed (ap : F → List V → V) (p : Term V × Graph V F) : Option V :=
  (execSched ap p.2 (threadSched p.2)).bind fun st => lookupSt st p.1

/-- A statement of graph-building Python code: either an immediate call
`f(args)` or a wrapped call `dask.delayed(f)(args)`. -/
inductive Op (V F : Type) where
  | callNow (f : F) (args : List (Term V))
  | delay (f : F) (args : List (Term V))

/-- Is this statement a wrapped (deferred) call? -/
def isDelay : Op V F → Bool
  | .callNow _ _ => false
  | .delay _ _ => true

/-- The task node a statement describes. -/
def opSpec : Op V F → TaskSpec V F
  | .callNow f args => ⟨f, args⟩
  | .delay f args => ⟨f, args⟩

/-- Modelled from the spec: run the graph-building statements.  An
immediate call invokes its function now (it is appended to the returned
call trace); a wrapped call only records a node via `delayedCall` and
invokes nothing. -/
def runOps : List (Op V F) → Graph V F → Graph V F × List F
  | [], g => (g, [])
  | .callNow f _ :: ops, g =>
    let r := runOps ops g
    (r.1, f :: r.2)
  | .delay f args :: ops, g => runOps ops (delayedCall f args g).2

/-- The functions a schedule invokes, in execution order. -/
def execTrace (g : Graph V F) (ks : List Nat) : List F :=
  ks.filterMap fun k => g[k]?.map TaskSpec.fn

/-- Validity of a statement sequence: every wrapped call only references
task nodes that already exist (as `dask.delayed` arguments do). -/
def opsWF : Nat → List (Op V F) → Bool
  | _, [] => true
  | n, .delay _ args :: ops => args.all (termBelowB n) && opsWF (n + 1) ops
  | n, .callNow _ _ :: ops => opsWF n ops

/-- Dependency edge of a graph: node `k` depends on node `j` (the spec's
"must complete before" edge). -/
def dependsOn (g : Graph V F) (k j : Nat) : Prop :=
  ∃ e, g[k]? = some e ∧ Term.ref j ∈ e.args

/-- Full state of an executor mid-run: the fixed graph being consumed
and the store of finished task values. -/
structure EState (V F : Type) where
  graph : Graph V F
  finished : List (Nat × V)

/-- Modelled from the spec: one execution step of any backend: a not yet
finished task whose dependencies are all finished is executed, and its
value is added to the finished store. -/
inductive ExecStep (ap : F → List V → V) : EState V F → EState V F → Prop
  | run (s : EState V F) (k : Nat) (e : TaskSpec V F) (vals : List V)
      (hk : s.graph[k]? = some e)
      (hnew : s.finished.lookup k = none)
      (hargs : mapTerms s.finished e.args = some vals) :
      ExecStep ap s ⟨s.graph, (k, ap e.fn vals) :: s.finished⟩

/-- A row of one day's CSV: the timestamp rounded to its day, and the
high/low prices (the columns the spread computation reads). -/
structure Row where
  day : Nat
  high : Int
  low : Int
deriving DecidableEq

/-- `column.max()` on a pandas column. -/
def colMax : List Int → Int
  | [] => 0
  | x :: xs => xs.foldl max x

/-- `column.min()` on a pandas column. -/
def colMin : List Int → Int
  | [] => 0
  | x :: xs => xs.foldl min x

/-- Notebook 01: `spread = df.high.max() - df.low.min()`. -/
def spreadOf (df : List Row) : Int :=
  colMax (df.map Row.high) - colMin (df.map Row.low)

/-- Notebook 01: `day = df.index[0].round('1d')`. -/
def dayOf (df : List Row) : Nat := (df.headD ⟨0, 0, 0⟩).day

/-- Notebook 01: `filenames = sorted(glob(...))`. -/
def filenames (paths : List String) : List String :=
  paths.mergeSort fun a b => decide (a ≤ b)

/-- Notebook 01, sequential spread loop: read each file, append its
spread to `spreads` and its day to `days` (reading through `readF`). -/
def spreadLoop (readF : String → List Row) :
    List String → List Int × List Nat
  | [] => ([], [])
  | fn :: fns =>
    let df := readF fn
    let rest := spreadLoop readF fns
    (spreadOf df :: rest.1, dayOf df :: rest.2)

/-- The same sequential loop with a fallible reader: `pd.read_csv` may
fail on a malformed file, and the notebook code has no handler, so the
error is returned as-is. -/
def spreadLoopE (readE : String → Except String (List Row)) :
    List String → Except String (List Int × List Nat)
  | [] => .ok ([], [])
  | fn :: fns =>
    match readE fn with
    | .error ex => .error ex
    | .ok df =>
      match spreadLoopE readE fns with
      | .error ex => .error ex
      | .ok r => .ok (spreadOf df :: r.1, dayOf df :: r.2)

/-- A dask.dataframe value: a pandas frame or a day-indexed series. -/
inductive SVal where
  | frame (rows : List Row)
  | series (entries : List (Nat × Int))
deriving DecidableEq

/-- The task functions of the stock-spread dataframe graph. -/
inductive SFn where
  | read (rows : List Row)
  | highMax
  | lowMin
  | subSeries
  | sid
deriving DecidableEq

def asFrame : SVal → List Row
  | .frame r => r
  | _ => []

def asSeries : SVal → List (Nat × Int)
  | .series s => s
  | _ => []

/-- The distinct day keys of a frame, in order of first appearance. -/
def daysOf (rows : List Row) : List Nat := (rows.map Row.day).dedup

/-- `groupby(day).high.max()` for one day group. -/
def highOn (rows : List Row) (d : Nat) : Int :=
  colMax ((rows.filter fun r => r.day == d).map Row.high)

/-- `groupby(day).low.min()` for one day group. -/
def lowOn (rows : List Row) (d : Nat) : Int :=
  colMin ((rows.filter fun r => r.day == d).map Row.low)

/-- Interpretation of the stock-graph task functions: `read` loads one
file's rows; `highMax`/`lowMin` concatenate their input frames and
aggregate per day; `subSeries` subtracts two day-indexed series;
`sid` is the identity (used to hold a materialized partition). -/
def applySFn : SFn → List SVal → SVal
  | .read rows, _ => .frame rows
  | .highMax, vs =>
    let rows := (vs.map asFrame).flatten
    .series ((daysOf rows).map fun d => (d, highOn rows d))
  | .lowMin, vs =>
    let rows := (vs.map asFrame).flatten
    .series ((daysOf rows).map fun d => (d, lowOn rows d))
  | .subSeries, [a, b] =>
    .series ((asSeries a).map fun p =>
      (p.1, p.2 - ((asSeries b).lookup p.1).getD 0))
  | .subSeries, _ => .series []
  | .sid, [v] => v
  | .sid, _ => .frame []

/-- Notebook 03: the stock-spread graph.  `dd.read_csv` records one read
task per file; `high = df.groupby(day).high.max()` and
`low = df.groupby(day).low.min()` each aggregate over every read task;
`spread = high - low` depends on both aggregations. -/
def spreadGraph (files : List (List Row)) : Graph SVal SFn :=
  (files.map fun r => ⟨.read r, []⟩) ++
    [⟨.highMax, (List.range files.length).map Term.ref⟩,
     ⟨.lowMin, (List.range files.length).map Term.ref⟩,
     ⟨.subSeries, [Term.ref files.length, Term.ref (files.length + 1)]⟩]

/-- A partition of a dask dataframe: a task graph plus the term that
yields this partition's pandas frame. -/
abbrev DPart := Graph SVal SFn × Term SVal

/-- The logical value of a partition. -/
def partValue (p : DPart) : SVal :=
  resultTermAt applySFn (SVal.frame []) p.1 p.2

/-- The rows a partition holds. -/
def partRows (p : DPart) : List Row := asFrame (partValue p)

/-- `.compute()` on a dask dataframe: concatenate every partition into
one pandas frame. -/
def computeDDF (d : List DPart) : List Row := (d.map partRows).flatten

/-- Modelled from the spec: `.persist()` triggers computation of every
partition now and keeps the materialized values in memory, one
(trivial) task per partition, preserving the partitioning. -/
def persistDDF (d : List DPart) : List DPart :=
  d.map fun p => ([⟨.sid, [Term.const (partValue p)]⟩], Term.ref 0)

/-- Split a row list into chunks of `c + 1` rows (`fuel` bounds the
recursion by the list length). -/
def chunkEvery (c : Nat) : Nat → List Row → List (List Row)
  | 0, l => if l.isEmpty then [] else [l]
  | _ + 1, [] => []
  | fuel + 1, x :: xs =>
    (x :: xs).take (c + 1) :: chunkEvery c fuel ((x :: xs).drop (c + 1))

/-- Modelled from the spec: `.repartition(npartitions=n)` reshards the
same rows into about `n` equal partitions; only the granularity
changes. -/
def repartition (parts : List (List Row)) (n : Nat) : List (List Row) :=
  let all := parts.flatten
  chunkEvery ((all.length + n - 1) / n - 1) all.length all

/-- The graph-building statements recorded for `z`: three wrapped calls,
no immediate ones. -/
def zOps : List (Op Int Fn) :=
  [.delay .finc [.const 1], .delay .finc [.const 2],
   .delay .fadd [.ref 0, .ref 1]]

/-- A file reader for examples: one well-formed file and one that
`pd.read_csv` fails to parse. -/
def readDemo : String → Except String (List Row) :=
  fun f => if f = "bad" then .error "parse" else .ok [⟨1, 5, 2⟩]

/-- The total reader used in alignment examples. -/
def readPlain (f : String) : List Row :=
  if f = "a" then [⟨1, 5, 2⟩, ⟨1, 9, 4⟩] else [⟨2, 7, 3⟩]

theorem wfFrom_iff (g : Graph V F) :
    ∀ i, wfFrom i g = true ↔
      ∀ k e, g[k]? = some e → ∀ t ∈ e.args, termBelowB (i + k) t = true := by
  induction g with
  | nil =>
    intro i
    simp [wfFrom]
  | cons hd tl ih =>
    intro i
    simp only [wfFrom, Bool.and_eq_true, List.all_eq_true, ih (i + 1)]
    constructor
    · rintro ⟨hhd, htl⟩ k e hk
      cases k with
      | zero =>
        rw [List.getElem?_cons_zero] at hk
        cases hk
        simpa using hhd
      | succ k =>
        rw [List.getElem?_cons_succ] at hk
        have := htl k e hk
        intro t ht
        have h2 := this t ht
        have heq : i + 1 + k = i + (k + 1) := by omega
        rwa [heq] at h2
    · intro h
      constructor
      · intro t ht
        have := h 0 hd (by simp) t ht
        simpa using this
      · intro k e hk t ht
        have := h (k + 1) e (by simpa using hk) t ht
        have heq : i + (k + 1) = i + 1 + k := by omega
        rwa [heq] at this

theorem wfB_iff (g : Graph V F) :
    wfB g = true ↔
      ∀ k e, g[k]? = some e → ∀ t ∈ e.args, termBelowB k t = true := by
  have := wfFrom_iff g 0
  simpa [wfB] using this

theorem denoteAux_length (ap : F → List V → V) (dflt : V) (g : Graph V F) :
    ∀ n, n ≤ g.length → (denoteAux ap dflt g n).length = n := by
  intro n
  induction n with
  | zero => intro _; simp [denoteAux]
  | succ n ih =>
    intro h
    have hn : n < g.length := Nat.lt_of_succ_le h
    have hget : g[n]? = some g[n] := List.getElem?_eq_getElem hn
    simp [denoteAux, hget, ih (Nat.le_of_lt hn)]

theorem denoteAux_prefix (ap : F → List V → V) (dflt : V) (g : Graph V F) :
    ∀ n m, n ≤ m → denoteAux ap dflt g n <+: denoteAux ap dflt g m := by
  intro n m hnm
  induction m with
  | zero =>
    have : n = 0 := Nat.le_zero.mp hnm
    subst this
    exact List.prefix_refl _
  | succ m ih =>
    rcases Nat.lt_or_ge n (m + 1) with h | h
    · have hle : n ≤ m := Nat.lt_succ_iff.mp h
      refine (ih hle).trans ?_
      cases hg : g[m]? with
      | none => simp [denoteAux, hg]
      | some e =>
        have heq : denoteAux ap dflt g (m + 1) =
            denoteAux ap dflt g m ++
              [ap e.fn (e.args.map (termValWith dflt (denoteAux ap dflt g m)))] := by
          simp [denoteAux, hg]
        rw [heq]
        exact List.prefix_append _ _
    · have : n = m + 1 := Nat.le_antisymm hnm h
      subst this
      exact List.prefix_refl _

theorem denoteAux_stable (ap : F → List V → V) (dflt : V) (g g' : Graph V F)
    (hpre : g <+: g') :
    ∀ n, n ≤ g.length → denoteAux ap dflt g' n = denoteAux ap dflt g n := by
  intro n
  induction n with
  | zero => intro _; simp [denoteAux]
  | succ n ih =>
    intro h
    have hn : n < g.length := Nat.lt_of_succ_le h
    obtain ⟨t, ht⟩ := hpre
    have hget : g'[n]? = g[n]? := by
      rw [← ht, List.getElem?_append]
      simp [hn]
    simp only [denoteAux, hget, ih (Nat.le_of_lt hn)]

theorem denoteAux_getD (ap : F → List V → V) (dflt : V) (g : Graph V F)
    (n j : Nat) (hjn : j < n) (hj : j < g.length) :
    (denoteAux ap dflt g n).getD j dflt = resultAt ap dflt g j := by
  obtain ⟨t, ht⟩ := denoteAux_prefix ap dflt g (j + 1) n hjn
  have hlen : (denoteAux ap dflt g (j + 1)).length = j + 1 :=
    denoteAux_length ap dflt g (j + 1) hj
  rw [← ht, List.getD_append _ _ _ j (by omega)]
  rfl

theorem resultAt_eq (ap : F → List V → V) (dflt : V) (g : Graph V F)
    (k : Nat) (e : TaskSpec V F) (hk : g[k]? = some e) :
    resultAt ap dflt g k =
      ap e.fn (e.args.map (termValWith dflt (denoteAux ap dflt g k))) := by
  have hkl : k < g.length := by
    rcases List.getElem?_eq_some.mp hk with ⟨h, _⟩
    exact h
  have hstep : denoteAux ap dflt g (k + 1) =
      denoteAux ap dflt g k ++
        [ap e.fn (e.args.map (termValWith dflt (denoteAux ap dflt g k)))] := by
    simp [denoteAux, hk]
  have hlen : (denoteAux ap dflt g k).length = k :=
    denoteAux_length ap dflt g k (Nat.le_of_lt hkl)
  rw [resultAt, hstep, List.getD_eq_getElem?_getD,
    List.getElem?_append_right (by omega)]
  simp [hlen]

theorem resultAt_stable (ap : F → List V → V) (dflt : V) (g g' : Graph V F)
    (hpre : g <+: g') (j : Nat) (hj : j < g.length) :
    resultAt ap dflt g' j = resultAt ap dflt g j := by
  unfold resultAt
  rw [denoteAux_stable ap dflt g g' hpre (j + 1) hj]

theorem termValWith_eq_resultTermAt (ap : F → List V → V) (dflt : V)
    (g : Graph V F) (k : Nat) (hk : k ≤ g.length) (t : Term V)
    (ht : termBelowB k t = true) :
    termValWith dflt (denoteAux ap dflt g k) t = resultTermAt ap dflt g t := by
  cases t with
  | const v => rfl
  | ref j =>
    have hj : j < k := by simpa [termBelowB] using ht
    exact denoteAux_getD ap dflt g k j hj (by omega)

theorem mapTerms_eq (st : List (Nat × V)) (f : Term V → V) :
    ∀ ts : List (Term V), (∀ t ∈ ts, lookupSt st t = some (f t)) →
      mapTerms st ts = some (ts.map f) := by
  intro ts
  induction ts with
  | nil => intro _; rfl
  | cons t ts ih =>
    intro h
    have ht := h t (List.mem_cons_self t ts)
    have hts := ih (fun u hu => h u (List.mem_cons_of_mem t hu))
    simp [mapTerms, ht, hts]

theorem runSched_sound (ap : F → List V → V) (dflt : V) (g : Graph V F)
    (hwf : wfB g = true) :
    ∀ (ks done : List Nat) (st : List (Nat × V)),
      depsOkFromB g done ks = true →
      (∀ k ∈ ks, k < g.length) →
      (∀ j ∈ done, st.lookup j = some (resultAt ap dflt g j)) →
      ∃ st', runSched ap g ks st = some st' ∧
        ∀ j, j ∈ done ∨ j ∈ ks → st'.lookup j = some (resultAt ap dflt g j) := by
  intro ks
  induction ks with
  | nil =>
    intro done st _ _ hst
    refine ⟨st, rfl, ?_⟩
    intro j hj
    rcases hj with hj | hj
    · exact hst j hj
    · simp at hj
  | cons k ks ih =>
    intro done st hdeps hbound hst
    have hk : k < g.length := hbound k (List.mem_cons_self k ks)
    have hget : g[k]? = some g[k] := List.getElem?_eq_getElem hk
    set e := g[k] with he
    have hdeps' : (argsOf g k).all (termReady done) = true ∧
        depsOkFromB g (k :: done) ks = true := by
      simpa [depsOkFromB, Bool.and_eq_true] using hdeps
    have hargs : argsOf g k = e.args := by simp [argsOf, hget]
    have hlook : ∀ t ∈ e.args,
        lookupSt st t = some (resultTermAt ap dflt g t) := by
      intro t htmem
      have hready : termReady done t = true := by
        have := List.all_eq_true.mp hdeps'.1
        exact this t (by rw [hargs]; exact htmem)
      cases t with
      | const v => rfl
      | ref j =>
        have hjd : j ∈ done := by
          simpa [termReady] using hready
        exact hst j hjd
    have hmt : mapTerms st e.args =
        some (e.args.map (resultTermAt ap dflt g)) :=
      mapTerms_eq st _ e.args hlook
    have hval : ap e.fn (e.args.map (resultTermAt ap dflt g)) =
        resultAt ap dflt g k := by
      rw [resultAt_eq ap dflt g k e hget]
      congr 1
      apply List.map_congr_left
      intro t htmem
      have hb : termBelowB k t = true :=
        (wfB_iff g).mp hwf k e hget t htmem
      exact
        (termValWith_eq_resultTermAt ap dflt g k (Nat.le_of_lt hk) t hb).symm
    have hst' : ∀ j ∈ k :: done,
        ((k, resultAt ap dflt g k) :: st).lookup j =
          some (resultAt ap dflt g j) := by
      intro j hj
      by_cases hjk : j = k
      · subst hjk
        simp [List.lookup]
      · have hjd : j ∈ done := by
          rcases List.mem_cons.mp hj with h | h
          · exact absurd h hjk
          · exact h
        have hne : (j == k) = false := by
          simp [hjk]
        simp [List.lookup, hne]
        exact hst j hjd
    obtain ⟨st', hrun, hfin⟩ :=
      ih (k :: done) ((k, resultAt ap dflt g k) :: st) hdeps'.2
        (fun k' hk' => hbound k' (List.mem_cons_of_mem k hk')) hst'
    refine ⟨st', ?_, ?_⟩
    · simp only [runSched, hget, hmt, hval]
      exact hrun
    · intro j hj
      apply hfin
      rcases hj with hj | hj
      · exact Or.inl (List.mem_cons_of_mem k hj)
      · rcases List.mem_cons.mp hj with h | h
        · exact Or.inl (h ▸ List.mem_cons_self k done)
        · exact Or.inr h

theorem outputs_eq_denote (ap : F → List V → V) (dflt : V) (g : Graph V F)
    (ks : List Nat) (hwf : wfB g = true)
    (hdeps : depsOkFromB g [] ks = true)
    (hbound : ∀ k ∈ ks, k < g.length)
    (hcov : ∀ k, k < g.length → k ∈ ks) :
    outputs ap g ks =
      (List.range g.length).map fun k => some (resultAt ap dflt g k) := by
  obtain ⟨st', hrun, hfin⟩ :=
    runSched_sound ap dflt g hwf ks [] [] hdeps hbound (by intro j hj; simp at hj)
  unfold outputs execSched
  apply List.map_congr_left
  intro k hkr
  have hk : k < g.length := List.mem_range.mp hkr
  rw [hrun]
  exact hfin k (Or.inr (hcov k hk))

theorem termReady_mono (done done' : List Nat)
    (hsub : ∀ j, j ∈ done → j ∈ done') :
    ∀ t : Term V, termReady done t = true → termReady done' t = true := by
  intro t ht
  cases t with
  | const v => rfl
  | ref j =>
    have : j ∈ done := by simpa [termReady] using ht
    simpa [termReady] using hsub j this

theorem depsOkFromB_mono (g : Graph V F) :
    ∀ (ks done done' : List Nat), (∀ j ∈ done, j ∈ done') →
      depsOkFromB g done ks = true → depsOkFromB g done' ks = true := by
  intro ks
  induction ks with
  | nil => intro done done' _ _; rfl
  | cons k ks ih =>
    intro done done' hsub h
    have h' : (argsOf g k).all (termReady done) = true ∧
        depsOkFromB g (k :: done) ks = true := by
      simpa [depsOkFromB, Bool.and_eq_true] using h
    have hhd : (argsOf g k).all (termReady done') = true := by
      rw [List.all_eq_true] at h' ⊢
      exact fun t ht => termReady_mono done done' hsub t (h'.1 t ht)
    have htl : depsOkFromB g (k :: done') ks = true := by
      refine ih (k :: done) (k :: done') ?_ h'.2
      intro j hj
      rcases List.mem_cons.mp hj with h | h
      · exact h ▸ List.mem_cons_self k done'
      · exact List.mem_cons_of_mem k (hsub j h)
    simp [depsOkFromB, Bool.and_eq_true, hhd, htl]

theorem depsOkFromB_append (g : Graph V F) :
    ∀ (ks₁ ks₂ done : List Nat),
      depsOkFromB g done ks₁ = true →
      depsOkFromB g (ks₁.reverse ++ done) ks₂ = true →
      depsOkFromB g done (ks₁ ++ ks₂) = true := by
  intro ks₁
  induction ks₁ with
  | nil => intro ks₂ done _ h; simpa using h
  | cons k ks₁ ih =>
    intro ks₂ done h1 h2
    have h1' : (argsOf g k).all (termReady done) = true ∧
        depsOkFromB g (k :: done) ks₁ = true := by
      simpa [depsOkFromB, Bool.and_eq_true] using h1
    have h2' : depsOkFromB g (ks₁.reverse ++ (k :: done)) ks₂ = true := by
      have heq : (k :: ks₁).reverse ++ done = ks₁.reverse ++ (k :: done) := by
        simp
      rwa [heq] at h2
    have := ih ks₂ (k :: done) h1'.2 h2'
    simp [depsOkFromB, Bool.and_eq_true, h1'.1, this]

theorem depsOkFromB_of_ready (g : Graph V F) :
    ∀ (r done : List Nat),
      (∀ k ∈ r, (argsOf g k).all (termReady done) = true) →
      depsOkFromB g done r = true := by
  intro r
  induction r with
  | nil => intro done _; rfl
  | cons k r ih =>
    intro done h
    have hhd := h k (List.mem_cons_self k r)
    have htl : depsOkFromB g (k :: done) r = true := by
      refine ih (k :: done) ?_
      intro k' hk'
      have := h k' (List.mem_cons_of_mem k hk')
      rw [List.all_eq_true] at this ⊢
      exact fun t ht =>
        termReady_mono done (k :: done) (fun j hj => List.mem_cons_of_mem k hj)
          t (this t ht)
    simp [depsOkFromB, Bool.and_eq_true, hhd, htl]

theorem mem_ready_bound (g : Graph V F) (done : List Nat) (k : Nat) :
    k ∈ ready g done → k < g.length := by
  intro hk
  have := List.of_mem_filter hk
  have hmem := List.mem_of_mem_filter hk
  exact List.mem_range.mp hmem

theorem mem_ready_args (g : Graph V F) (done : List Nat) (k : Nat)
    (hk : k ∈ ready g done) :
    (argsOf g k).all (termReady done) = true := by
  have := List.of_mem_filter hk
  simp only [Bool.and_eq_true] at this
  exact this.2

section Rounds

variable (p : List Nat → List Nat)

theorem roundsSched_depsOk (g : Graph V F)
    (hp : ∀ (l : List Nat) (x : Nat), x ∈ p l ↔ x ∈ l) :
    ∀ (fuel : Nat) (done : List Nat),
      depsOkFromB g done (roundsSched g p fuel done) = true := by
  intro fuel
  induction fuel with
  | zero => intro done; rfl
  | succ fuel ih =>
    intro done
    simp only [roundsSched]
    refine depsOkFromB_append g _ _ _ ?_ ?_
    · refine depsOkFromB_of_ready g _ _ ?_
      intro k hk
      exact mem_ready_args g done k ((hp _ k).mp hk)
    · refine depsOkFromB_mono g _ _ _ ?_ (ih (p (ready g done) ++ done))
      intro j hj
      simpa using (by simpa using hj : j ∈ p (ready g done) ∨ j ∈ done)

theorem roundsSched_bound (g : Graph V F)
    (hp : ∀ (l : List Nat) (x : Nat), x ∈ p l ↔ x ∈ l) :
    ∀ (fuel : Nat) (done : List Nat) (k : Nat),
      k ∈ roundsSched g p fuel done → k < g.length := by
  intro fuel
  induction fuel with
  | zero => intro done k hk; simp [roundsSched] at hk
  | succ fuel ih =>
    intro done k hk
    simp only [roundsSched, List.mem_append] at hk
    rcases hk with hk | hk
    · exact mem_ready_bound g done k ((hp _ k).mp hk)
    · exact ih _ k hk

theorem roundsSched_cover (g : Graph V F)
    (hp : ∀ (l : List Nat) (x : Nat), x ∈ p l ↔ x ∈ l) (hwf : wfB g = true) :
    ∀ (fuel a : Nat) (done : List Nat),
      (∀ j, j < a → j ∈ done) → g.length ≤ a + fuel →
      ∀ k, k < g.length → k ∈ done ∨ k ∈ roundsSched g p fuel done := by
  intro fuel
  induction fuel with
  | zero =>
    intro a done hcov hle k hk
    exact Or.inl (hcov k (by omega))
  | succ fuel ih =>
    intro a done hcov hle k hk
    rcases Nat.lt_or_ge a g.length with ha | ha
    · have hcov' : ∀ j, j < a + 1 → j ∈ p (ready g done) ++ done := by
        intro j hj
        rcases Nat.lt_or_ge j a with hja | hja
        · exact List.mem_append_right _ (hcov j hja)
        · have hja' : j = a := by omega
          subst hja'
          by_cases hjd : j ∈ done
          · exact List.mem_append_right _ hjd
          · refine List.mem_append_left _ ((hp _ j).mpr ?_)
            refine List.mem_filter.mpr ⟨List.mem_range.mpr ha, ?_⟩
            have hnc : done.contains j = false := by
              simpa using hjd
            have hargs : (argsOf g j).all (termReady done) = true := by
              rw [List.all_eq_true]
              intro t ht
              cases hget : g[j]? with
              | none => simp [argsOf, hget] at ht
              | some e =>
                have htb : termBelowB j t = true := by
                  refine (wfB_iff g).mp hwf j e hget t ?_
                  simpa [argsOf, hget] using ht
                cases t with
                | const v => rfl
                | ref i =>
                  have : i < j := by simpa [termBelowB] using htb
                  simpa [termReady] using hcov i this
            simp [hnc, hargs, hjd]
      have := ih (a + 1) (p (ready g done) ++ done) hcov' (by omega) k hk
      simp only [roundsSched, List.mem_append]
      rcases this with h | h
      · rcases List.mem_append.mp h with h | h
        · exact Or.inr (Or.inl h)
        · exact Or.inl h
      · exact Or.inr (Or.inr h)
    · exact Or.inl (hcov k (by omega))

end Rounds

theorem argsOf_ready_of_below (g : Graph V F) (hwf : wfB g = true) (a : Nat)
    (done : List Nat) (hcov : ∀ j, j < a → j ∈ done) :
    (argsOf g a).all (termReady done) = true := by
  rw [List.all_eq_true]
  intro t ht
  cases hget : g[a]? with
  | none => simp [argsOf, hget] at ht
  | some e =>
    have htb : termBelowB a t = true := by
      refine (wfB_iff g).mp hwf a e hget t ?_
      simpa [argsOf, hget] using ht
    cases t with
    | const v => rfl
    | ref i =>
      have : i < a := by simpa [termBelowB] using htb
      simpa [termReady] using hcov i this

theorem depsOkFromB_range' (g : Graph V F) (hwf : wfB g = true) :
    ∀ (n a : Nat) (done : List Nat), (∀ j, j < a → j ∈ done) →
      depsOkFromB g done (List.range' a n) = true := by
  intro n
  induction n with
  | zero => intro a done _; rfl
  | succ n ih =>
    intro a done hcov
    have hrange : List.range' a (n + 1) = a :: List.range' (a + 1) n := by
      simp [List.range']
    rw [hrange]
    have hhd := argsOf_ready_of_below g hwf a done hcov
    have htl : depsOkFromB g (a :: done) (List.range' (a + 1) n) = true := by
      refine ih (a + 1) (a :: done) ?_
      intro j hj
      rcases Nat.lt_or_ge j a with h | h
      · exact List.mem_cons_of_mem a (hcov j h)
      · have : j = a := by omega
        exact this ▸ List.mem_cons_self a done
    simp [depsOkFromB, Bool.and_eq_true, hhd, htl]

theorem syncSched_valid (g : Graph V F) (hwf : wfB g = true) :
    depsOkFromB g [] (syncSched g) = true := by
  have := depsOkFromB_range' g hwf g.length 0 [] (by intro j hj; omega)
  simpa [syncSched, List.range_eq_range'] using this

theorem syncSched_denotes (ap : F → List V → V) (dflt : V) (g : Graph V F)
    (hwf : wfB g = true) :
    outputs ap g (syncSched g) =
      (List.range g.length).map fun k => some (resultAt ap dflt g k) := by
  refine outputs_eq_denote ap dflt g _ hwf (syncSched_valid g hwf) ?_ ?_
  · intro k hk
    exact List.mem_range.mp (by simpa [syncSched] using hk)
  · intro k hk
    simpa [syncSched] using List.mem_range.mpr hk

theorem roundsSched_denotes (p : List Nat → List Nat)
    (hp : ∀ (l : List Nat) (x : Nat), x ∈ p l ↔ x ∈ l)
    (ap : F → List V → V) (dflt : V) (g : Graph V F) (hwf : wfB g = true) :
    outputs ap g (roundsSched g p g.length []) =
      (List.range g.length).map fun k => some (resultAt ap dflt g k) := by
  refine outputs_eq_denote ap dflt g _ hwf (roundsSched_depsOk p g hp g.length [])
    (fun k hk => roundsSched_bound p g hp g.length [] k hk) ?_
  intro k hk
  have := roundsSched_cover p g hp hwf g.length 0 [] (by intro j hj; omega)
    (by omega) k hk
  rcases this with h | h
  · simp at h
  · exact h

theorem threadSched_denotes (ap : F → List V → V) (dflt : V) (g : Graph V F)
    (hwf : wfB g = true) :
    outputs ap g (threadSched g) =
      (List.range g.length).map fun k => some (resultAt ap dflt g k) :=
  roundsSched_denotes id (fun _ _ => Iff.rfl) ap dflt g hwf

theorem processSched_denotes (ap : F → List V → V) (dflt : V) (g : Graph V F)
    (hwf : wfB g = true) :
    outputs ap g (processSched g) =
      (List.range g.length).map fun k => some (resultAt ap dflt g k) :=
  roundsSched_denotes List.reverse (fun _ _ => List.mem_reverse) ap dflt g hwf

theorem distributedSched_denotes (ap : F → List V → V) (dflt : V)
    (g : Graph V F) (hwf : wfB g = true) :
    outputs ap g (distributedSched g) =
      (List.range g.length).map fun k => some (resultAt ap dflt g k) :=
  roundsSched_denotes (fun l => l.rotate 1) (fun _ _ => List.mem_rotate)
    ap dflt g hwf

theorem termBelowB_mono (i j : Nat) (hij : i ≤ j) (t : Term V)
    (ht : termBelowB i t = true) : termBelowB j t = true := by
  cases t with
  | const v => rfl
  | ref k =>
    have : k < i := by simpa [termBelowB] using ht
    simp [termBelowB]
    omega

theorem wfB_concat (g : Graph V F) (e : TaskSpec V F) (hg : wfB g = true)
    (he : ∀ t ∈ e.args, termBelowB g.length t = true) :
    wfB (g ++ [e]) = true := by
  rw [wfB_iff]
  intro k e' hk t ht
  rcases Nat.lt_or_ge k g.length with h | h
  · have : g[k]? = some e' := by
      rw [List.getElem?_append] at hk
      simpa [h] using hk
    exact (wfB_iff g).mp hg k e' this t ht
  · have hkl : k < (g ++ [e]).length := by
      rcases List.getElem?_eq_some.mp hk with ⟨h', _⟩
      exact h'
    have hke : k = g.length := by
      simp at hkl
      omega
    subst hke
    have : e' = e := by
      rw [List.getElem?_concat_length] at hk
      exact ((Option.some.injEq _ _).mp hk).symm
    subst this
    exact he t ht

theorem resultTermAt_stable (ap : F → List V → V) (dflt : V)
    (g g' : Graph V F) (hpre : g <+: g') (t : Term V)
    (ht : termBelowB g.length t = true) :
    resultTermAt ap dflt g' t = resultTermAt ap dflt g t := by
  cases t with
  | const v => rfl
  | ref j =>
    have hj : j < g.length := by simpa [termBelowB] using ht
    exact resultAt_stable ap dflt g g' hpre j hj

mutual

theorem compileExpr_ok (ap : F → List V → V) (dflt : V) (e : Expr V F)
    (g : Graph V F) (hg : wfB g = true) :
    wfB (compileExpr e g).2 = true ∧
    g <+: (compileExpr e g).2 ∧
    termBelowB (compileExpr e g).2.length (compileExpr e g).1 = true ∧
    resultTermAt ap dflt (compileExpr e g).2 (compileExpr e g).1 =
      evalExpr ap e := by
  cases e with
  | lit v =>
    exact ⟨hg, List.prefix_refl _, rfl, rfl⟩
  | app f args =>
    obtain ⟨hwq, hpq, htq, hmq⟩ := compileList_ok ap dflt args g hg
    set q := compileList args g with hq
    have hout : compileExpr (.app f args) g =
        (Term.ref q.2.length, q.2 ++ [⟨f, q.1⟩]) := rfl
    rw [hout]
    have hwf' : wfB (q.2 ++ [⟨f, q.1⟩]) = true :=
      wfB_concat q.2 ⟨f, q.1⟩ hwq htq
    have hget : (q.2 ++ [⟨f, q.1⟩])[q.2.length]? = some ⟨f, q.1⟩ :=
      List.getElem?_concat_length _ _
    refine ⟨hwf', hpq.trans (List.prefix_append _ _), ?_, ?_⟩
    · simp [termBelowB]
    · show resultAt ap dflt (q.2 ++ [⟨f, q.1⟩]) q.2.length = evalExpr ap (.app f args)
      rw [resultAt_eq ap dflt _ q.2.length ⟨f, q.1⟩ hget]
      have hden : denoteAux ap dflt (q.2 ++ [⟨f, q.1⟩]) q.2.length =
          denoteAux ap dflt q.2 q.2.length :=
        denoteAux_stable ap dflt q.2 _ (List.prefix_append _ _) q.2.length
          (Nat.le_refl _)
      have hmap : q.1.map (termValWith dflt
          (denoteAux ap dflt (q.2 ++ [⟨f, q.1⟩]) q.2.length)) =
          q.1.map (resultTermAt ap dflt q.2) := by
        rw [hden]
        apply List.map_congr_left
        intro t ht
        exact termValWith_eq_resultTermAt ap dflt q.2 q.2.length
          (Nat.le_refl _) t (htq t ht)
      show ap f (q.1.map (termValWith dflt _)) = ap f (evalList ap args)
      rw [hmap, hmq]

theorem compileList_ok (ap : F → List V → V) (dflt : V)
    (es : List (Expr V F)) (g : Graph V F) (hg : wfB g = true) :
    wfB (compileList es g).2 = true ∧
    g <+: (compileList es g).2 ∧
    (∀ t ∈ (compileList es g).1,
      termBelowB (compileList es g).2.length t = true) ∧
    (compileList es g).1.map (resultTermAt ap dflt (compileList es g).2) =
      evalList ap es := by
  cases es with
  | nil =>
    exact ⟨hg, List.prefix_refl _, by intro t ht; simp [compileList] at ht, rfl⟩
  | cons e es =>
    obtain ⟨hwp, hpp, htp, hmp⟩ := compileExpr_ok ap dflt e g hg
    obtain ⟨hwq, hpq, htq, hmq⟩ :=
      compileList_ok ap dflt es (compileExpr e g).2 hwp
    set p := compileExpr e g with hpdef
    set q := compileList es p.2 with hqdef
    have hout : compileList (e :: es) g = (p.1 :: q.1, q.2) := rfl
    rw [hout]
    have hlen : p.2.length ≤ q.2.length := hpq.length_le
    refine ⟨hwq, hpp.trans hpq, ?_, ?_⟩
    · intro t ht
      rcases List.mem_cons.mp ht with h | h
      · exact h ▸ termBelowB_mono p.2.length q.2.length hlen p.1 htp
      · exact htq t h
    · show resultTermAt ap dflt q.2 p.1 :: q.1.map (resultTermAt ap dflt q.2) =
        evalExpr ap e :: evalList ap es
      rw [hmq, resultTermAt_stable ap dflt p.2 q.2 hpq p.1 htp, hmp]

end

theorem execSched_lookupSt (ap : F → List V → V) (dflt : V) (g : Graph V F)
    (hwf : wfB g = true) (t : Term V) (ht : termBelowB g.length t = true) :
    ((execSched ap g (threadSched g)).bind fun st => lookupSt st t) =
      some (resultTermAt ap dflt g t) := by
  obtain ⟨st', hrun, hfin⟩ :=
    runSched_sound ap dflt g hwf (threadSched g) [] []
      (roundsSched_depsOk id g (fun _ _ => Iff.rfl) g.length [])
      (fun k hk => roundsSched_bound id g (fun _ _ => Iff.rfl) g.length [] k hk)
      (by intro j hj; simp at hj)
  unfold execSched
  rw [hrun]
  cases t with
  | const v => rfl
  | ref j =>
    have hj : j < g.length := by simpa [termBelowB] using ht
    have hcov :=
      roundsSched_cover id g (fun _ _ => Iff.rfl) hwf g.length 0 []
        (by intro a ha; omega) (by omega) j hj
    rcases hcov with h | h
    · simp at h
    · exact hfin j (Or.inr h)

theorem computeDelayed_compile (ap : F → List V → V) (e : Expr V F) :
    computeDelayed ap (compileExpr e []) = some (evalExpr ap e) := by
  obtain ⟨hwf, _, hterm, hres⟩ :=
    compileExpr_ok ap (evalExpr ap e) e [] rfl
  unfold computeDelayed
  rw [execSched_lookupSt ap (evalExpr ap e) (compileExpr e []).2 hwf
    (compileExpr e []).1 hterm, hres]

theorem spreadGraph_wf (files : List (List Row)) :
    wfB (spreadGraph files) = true := by
  rw [wfB_iff]
  intro k e hk t ht
  set n := files.length with hn
  have hlenA : (files.map fun r =>
      (⟨.read r, []⟩ : TaskSpec SVal SFn)).length = n := by simp
  rcases Nat.lt_or_ge k n with h | h
  · have : (spreadGraph files)[k]? =
        (files.map fun r => (⟨.read r, []⟩ : TaskSpec SVal SFn))[k]? := by
      rw [spreadGraph, List.getElem?_append]
      simp [hlenA, h]
    rw [this, List.getElem?_map] at hk
    cases hf : files[k]? with
    | none => rw [hf] at hk; cases hk
    | some rows =>
      rw [hf] at hk
      have he : e = ⟨.read rows, []⟩ := by
        simpa using hk.symm
      rw [he] at ht
      simp at ht
  · have hk' : (spreadGraph files)[k]? =
        [(⟨.highMax, (List.range n).map Term.ref⟩ : TaskSpec SVal SFn),
         ⟨.lowMin, (List.range n).map Term.ref⟩,
         ⟨.subSeries, [Term.ref n, Term.ref (n + 1)]⟩][k - n]? := by
      rw [spreadGraph, List.getElem?_append_right (by rw [hlenA]; omega)]
      rw [hlenA]
    rw [hk'] at hk
    have hkn : k - n < 3 := by
      rcases List.getElem?_eq_some.mp hk with ⟨hlt, _⟩
      simpa using hlt
    have h0 : k - n = 0 ∨ k - n = 1 ∨ k - n = 2 := by omega
    rcases h0 with h0 | h0 | h0
    · rw [h0] at hk
      have he : e = ⟨.highMax, (List.range n).map Term.ref⟩ := by
        simpa using hk.symm
      rw [he] at ht
      simp only [List.mem_map] at ht
      obtain ⟨j, hj, hjt⟩ := ht
      rw [← hjt]
      have : j < n := List.mem_range.mp hj
      simp [termBelowB]
      omega
    · rw [h0] at hk
      have he : e = ⟨.lowMin, (List.range n).map Term.ref⟩ := by
        simpa using hk.symm
      rw [he] at ht
      simp only [List.mem_map] at ht
      obtain ⟨j, hj, hjt⟩ := ht
      rw [← hjt]
      have : j < n := List.mem_range.mp hj
      simp [termBelowB]
      omega
    · rw [h0] at hk
      have he : e = ⟨.subSeries, [Term.ref n, Term.ref (n + 1)]⟩ := by
        simpa using hk.symm
      rw [he] at ht
      simp only [List.mem_cons] at ht
      rcases ht with ht | ht
      · rw [ht]
        simp [termBelowB]
        omega
      · rcases ht with ht | ht
        · rw [ht]
          simp [termBelowB]
          omega
        · simp at ht

theorem fourSchedsAgree (ap : F → List V → V) (g : Graph V F)
    (hwf : wfB g = true) :
    outputs ap g (threadSched g) = outputs ap g (syncSched g) ∧
    outputs ap g (processSched g) = outputs ap g (syncSched g) ∧
    outputs ap g (distributedSched g) = outputs ap g (syncSched g) := by
  cases g with
  | nil => exact ⟨rfl, rfl, rfl⟩
  | cons e g' =>
    refine ⟨?_, ?_, ?_⟩
    · rw [threadSched_denotes ap (ap e.fn []) _ hwf,
        syncSched_denotes ap (ap e.fn []) _ hwf]
    · rw [processSched_denotes ap (ap e.fn []) _ hwf,
        syncSched_denotes ap (ap e.fn []) _ hwf]
    · rw [distributedSched_denotes ap (ap e.fn []) _ hwf,
        syncSched_denotes ap (ap e.fn []) _ hwf]

theorem dependsOn_lt (g : Graph V F) (hwf : wfB g = true) (k j : Nat)
    (h : dependsOn g k j) : j < k := by
  obtain ⟨e, hk, hj⟩ := h
  have := (wfB_iff g).mp hwf k e hk _ hj
  simpa [termBelowB] using this

theorem wfB_acyclic (g : Graph V F) (hwf : wfB g = true) (k : Nat) :
    ¬ Relation.TransGen (dependsOn g) k k := by
  intro h
  have hlt : ∀ a b, Relation.TransGen (dependsOn g) a b → b < a := by
    intro a b hab
    induction hab with
    | single h1 => exact dependsOn_lt g hwf _ _ h1
    | tail _ h1 ih => exact lt_trans (dependsOn_lt g hwf _ _ h1) ih
  exact absurd (hlt k k h) (lt_irrefl k)

theorem runOps_delay_eq :
    ∀ (ops : List (Op V F)) (g : Graph V F), ops.all isDelay = true →
      (runOps ops g).1 = g ++ ops.map opSpec ∧ (runOps ops g).2 = [] := by
  intro ops
  induction ops with
  | nil => intro g _; simp [runOps]
  | cons op ops ih =>
    intro g hall
    cases op with
    | callNow f args => simp [isDelay] at hall
    | delay f args =>
      have hall' : ops.all isDelay = true := by
        simpa [isDelay] using hall
      have := ih (g ++ [⟨f, args⟩]) hall'
      refine ⟨?_, ?_⟩
      · show (runOps ops (delayedCall f args g).2).1 = _
        rw [delayedCall]
        rw [this.1]
        simp [opSpec]
      · show (runOps ops (delayedCall f args g).2).2 = []
        rw [delayedCall]
        exact this.2

theorem runOps_wf :
    ∀ (ops : List (Op V F)) (g : Graph V F), wfB g = true →
      opsWF g.length ops = true → wfB (runOps ops g).1 = true := by
  intro ops
  induction ops with
  | nil => intro g hg _; exact hg
  | cons op ops ih =>
    intro g hg hops
    cases op with
    | callNow f args =>
      have hops' : opsWF g.length ops = true := by
        simpa [opsWF] using hops
      have heq : (runOps (Op.callNow f args :: ops) g).1 = (runOps ops g).1 := rfl
      rw [heq]
      exact ih g hg hops'
    | delay f args =>
      have hops' : args.all (termBelowB g.length) = true ∧
          opsWF (g.length + 1) ops = true := by
        simpa [opsWF, Bool.and_eq_true] using hops
      have hg' : wfB (g ++ [⟨f, args⟩]) = true :=
        wfB_concat g ⟨f, args⟩ hg (List.all_eq_true.mp hops'.1)
      have hlen : (g ++ [(⟨f, args⟩ : TaskSpec V F)]).length = g.length + 1 := by
        simp
      show wfB (runOps ops (delayedCall f args g).2).1 = true
      rw [delayedCall]
      exact ih (g ++ [⟨f, args⟩]) hg' (by rw [hlen]; exact hops'.2)

theorem filterMap_congr_mem {α β : Type} (f h : α → Option β) :
    ∀ l : List α, (∀ a ∈ l, f a = h a) → l.filterMap f = l.filterMap h := by
  intro l
  induction l with
  | nil => intro _; rfl
  | cons a l ih =>
    intro hl
    rw [List.filterMap_cons, List.filterMap_cons,
      hl a (List.mem_cons_self a l), ih fun b hb => hl b (List.mem_cons_of_mem a hb)]

theorem execTrace_sync (g : Graph V F) :
    execTrace g (syncSched g) = g.map TaskSpec.fn := by
  unfold execTrace syncSched
  induction g using List.reverseRecOn with
  | nil => rfl
  | append_singleton g e ih =>
    rw [List.length_append, List.length_singleton, List.range_succ,
      List.filterMap_append]
    have h1 : (List.range g.length).filterMap
        (fun k => (g ++ [e])[k]?.map TaskSpec.fn) =
        (List.range g.length).filterMap (fun k => g[k]?.map TaskSpec.fn) := by
      apply filterMap_congr_mem
      intro k hk
      have hlt : k < g.length := List.mem_range.mp hk
      rw [List.getElem?_append]
      simp [hlt]
    rw [h1, ih]
    simp [List.getElem?_concat_length]

theorem chunkEvery_flatten (c : Nat) :
    ∀ (fuel : Nat) (l : List Row), l.length ≤ fuel →
      (chunkEvery c fuel l).flatten = l := by
  intro fuel
  induction fuel with
  | zero =>
    intro l hl
    have : l = [] := List.length_eq_zero.mp (Nat.le_zero.mp hl)
    subst this
    simp [chunkEvery]
  | succ fuel ih =>
    intro l hl
    cases l with
    | nil => simp [chunkEvery]
    | cons x xs =>
      simp only [chunkEvery, List.flatten_cons]
      rw [ih ((x :: xs).drop (c + 1)) (by simp at hl ⊢; omega)]
      exact List.take_append_drop _ _

theorem spreadLoop_aligned (readF : String → List Row) :
    ∀ fns : List String,
      (spreadLoop readF fns).1.length = fns.length ∧
      (spreadLoop readF fns).2.length = fns.length ∧
      ∀ (i : Nat) (f : String), fns[i]? = some f →
        (spreadLoop readF fns).1[i]? = some (spreadOf (readF f)) ∧
        (spreadLoop readF fns).2[i]? = some (dayOf (readF f)) := by
  intro fns
  induction fns with
  | nil =>
    refine ⟨rfl, rfl, ?_⟩
    intro i f hf
    simp at hf
  | cons fn fns ih =>
    obtain ⟨ih1, ih2, ih3⟩ := ih
    refine ⟨by simp [spreadLoop, ih1], by simp [spreadLoop, ih2], ?_⟩
    intro i f hf
    cases i with
    | zero =>
      have : fn = f := by simpa using hf
      subst this
      exact ⟨by simp [spreadLoop], by simp [spreadLoop]⟩
    | succ i =>
      have hf' : fns[i]? = some f := by simpa using hf
      have := ih3 i f hf'
      exact ⟨by simpa [spreadLoop] using this.1, by simpa [spreadLoop] using this.2⟩

/-- C1: for every well-formed task graph (task functions are
deterministic by construction), the synchronous single-thread,
thread-pool, process-pool and distributed-cluster executors all produce
the identical logical result; in particular the stock-spread graph
(`dd.read_csv` tasks feeding the two groupby aggregations and their
difference) does, for every collection of input files. -/
theorem scheduler_equivalence :
    (∀ {V F : Type} (ap : F → List V → V) (g : Graph V F), wfB g = true →
      outputs ap g (threadSched g) = outputs ap g (syncSched g) ∧
      outputs ap g (processSched g) = outputs ap g (syncSched g) ∧
      outputs ap g (distributedSched g) = outputs ap g (syncSched g)) ∧
    (∀ files : List (List Row),
      outputs applySFn (spreadGraph files) (threadSched (spreadGraph files)) =
        outputs applySFn (spreadGraph files) (syncSched (spreadGraph files)) ∧
      outputs applySFn (spreadGraph files) (processSched (spreadGraph files)) =
        outputs applySFn (spreadGraph files) (syncSched (spreadGraph files)) ∧
      outputs applySFn (spreadGraph files)
          (distributedSched (spreadGraph files)) =
        outputs applySFn (spreadGraph files) (syncSched (spreadGraph files))) :=
  ⟨fun ap g hwf => fourSchedsAgree ap g hwf,
   fun files => fourSchedsAgree applySFn (spreadGraph files)
     (spreadGraph_wf files)⟩

/-- Witness for C1: the `z` graph is well formed and the thread-pool
executor agrees with the synchronous one on it. -/
theorem scheduler_equivalence_witness :
    wfB zGraph = true ∧
    outputs applyFn zGraph (threadSched zGraph) =
      outputs applyFn zGraph (syncSched zGraph) :=
  ⟨by decide, (scheduler_equivalence.1 applyFn zGraph (by decide)).1⟩

/-- C2: the deferred version of a program (every call recorded as a
graph node, one `compute` trigger at the end) returns the same value as
running the calls directly and sequentially; in particular `z` computes
to `add(inc(1), inc(2)) = 5` and the delayed for-loop over
`data = [1..8]` computes `total = 44`. -/
theorem delayed_equals_direct :
    (∀ {V F : Type} (ap : F → List V → V) (e : Expr V F),
      computeDelayed ap (compileExpr e []) = some (evalExpr ap e)) ∧
    computeDelayed applyFn (compileExpr zExpr []) = some 5 ∧
    computeDelayed applyFn (compileExpr totalExpr []) = some 44 := by
  refine ⟨fun ap e => computeDelayed_compile ap e, ?_, ?_⟩
  · rw [computeDelayed_compile applyFn zExpr]
    simp [zExpr, evalExpr, evalList, applyFn, inc, add, sleep]
  · rw [computeDelayed_compile applyFn totalExpr]
    simp [totalExpr, data, evalExpr, evalList, applyFn, inc, sleep]

/-- C3: graph construction executes no wrapped function: a sequence of
wrapped calls records exactly one node per call (with its dependency
edges) and its call trace is empty; the recorded functions are invoked
(once per node) only when the compute trigger walks the graph. -/
theorem build_records_without_executing :
    ∀ {V F : Type} (ops : List (Op V F)) (g : Graph V F),
      ops.all isDelay = true →
      (runOps ops g).1 = g ++ ops.map opSpec ∧
      (runOps ops g).2 = [] ∧
      execTrace (runOps ops g).1 (syncSched (runOps ops g).1) =
        (runOps ops g).1.map TaskSpec.fn := by
  intro V F ops g hall
  obtain ⟨h1, h2⟩ := runOps_delay_eq ops g hall
  exact ⟨h1, h2, execTrace_sync _⟩

/-- Witness for C3: building the `z` graph performs zero calls. -/
theorem build_records_without_executing_witness :
    zOps.all isDelay = true ∧ (runOps zOps ([] : Graph Int Fn)).2 = [] :=
  ⟨by decide, (build_records_without_executing zOps [] (by decide)).2.1⟩

/-- C4: under every one of the four executors, no task is scheduled
before all its dependencies: every executor's schedule respects the
dependency edges; in particular, on the `z` graph, the `add` node
(key 2) comes after both `inc` nodes (keys 0 and 1) in all four
schedules. -/
theorem no_task_before_dependencies :
    (∀ {V F : Type} (g : Graph V F), wfB g = true →
      depsOkFromB g [] (syncSched g) = true ∧
      depsOkFromB g [] (threadSched g) = true ∧
      depsOkFromB g [] (processSched g) = true ∧
      depsOkFromB g [] (distributedSched g) = true) ∧
    ((syncSched zGraph).indexOf 0 < (syncSched zGraph).indexOf 2 ∧
     (syncSched zGraph).indexOf 1 < (syncSched zGraph).indexOf 2 ∧
     (threadSched zGraph).indexOf 0 < (threadSched zGraph).indexOf 2 ∧
     (threadSched zGraph).indexOf 1 < (threadSched zGraph).indexOf 2 ∧
     (processSched zGraph).indexOf 0 < (processSched zGraph).indexOf 2 ∧
     (processSched zGraph).indexOf 1 < (processSched zGraph).indexOf 2 ∧
     (distributedSched zGraph).indexOf 0 <
       (distributedSched zGraph).indexOf 2 ∧
     (distributedSched zGraph).indexOf 1 <
       (distributedSched zGraph).indexOf 2) := by
  constructor
  · intro V F g hwf
    exact ⟨syncSched_valid g hwf,
      roundsSched_depsOk id g (fun _ _ => Iff.rfl) g.length [],
      roundsSched_depsOk List.reverse g (fun _ _ => List.mem_reverse)
        g.length [],
      roundsSched_depsOk (fun l => l.rotate 1) g (fun _ _ => List.mem_rotate)
        g.length []⟩
  · decide

/-- Witness for C4: the four schedule validity checks on the `z`
graph. -/
theorem no_task_before_dependencies_witness :
    wfB zGraph = true ∧ depsOkFromB zGraph [] (syncSched zGraph) = true :=
  ⟨by decide, (no_task_before_dependencies.1 zGraph (by decide)).1⟩

/-- C5: every graph built by the deferred-execution wrapper is acyclic:
a sequence of wrapped calls whose arguments reference existing nodes
produces a graph whose dependency relation ("must complete before")
contains no directed cycle. -/
theorem wrapper_graphs_acyclic :
    ∀ {V F : Type} (ops : List (Op V F)) (g : Graph V F),
      wfB g = true → opsWF g.length ops = true →
      ∀ k, ¬ Relation.TransGen (dependsOn (runOps ops g).1) k k := by
  intro V F ops g hg hops k
  exact wfB_acyclic _ (runOps_wf ops g hg hops) k

/-- Witness for C5: the graph built from the `z` statements has no
cycle through its `add` node. -/
theorem wrapper_graphs_acyclic_witness :
    wfB ([] : Graph Int Fn) = true ∧ opsWF 0 zOps = true ∧
    ¬ Relation.TransGen (dependsOn (runOps zOps ([] : Graph Int Fn)).1) 2 2 :=
  ⟨rfl, by decide, wrapper_graphs_acyclic zOps [] rfl (by decide) 2⟩

/-- C6: task nodes are immutable and execution does not mutate the
graph: every executor step (and hence every execution run) leaves the
graph component of the state unchanged, so a second compute acts on the
identical graph and produces the identical outputs. -/
theorem execution_preserves_graph :
    (∀ {V F : Type} (ap : F → List V → V) (s s' : EState V F),
      Relation.ReflTransGen (ExecStep ap) s s' → s'.graph = s.graph) ∧
    (∀ {V F : Type} (ap : F → List V → V) (g : Graph V F) (s : EState V F)
        (ks : List Nat),
      Relation.ReflTransGen (ExecStep ap) ⟨g, []⟩ s →
      outputs ap s.graph ks = outputs ap g ks) := by
  have hrtc : ∀ {V F : Type} (ap : F → List V → V) (s s' : EState V F),
      Relation.ReflTransGen (ExecStep ap) s s' → s'.graph = s.graph := by
    intro V F ap s s' h
    induction h with
    | refl => rfl
    | tail h1 h2 ih =>
      cases h2
      exact ih
  exact ⟨fun ap s s' h => hrtc ap s s' h,
    fun ap g s ks h => by rw [hrtc ap _ _ h]⟩

/-- Witness for C6: one concrete execution step on the `z` graph leaves
the graph intact. -/
theorem execution_preserves_graph_witness :
    (EState.mk zGraph [(0, applyFn .finc [1])]).graph =
      (EState.mk zGraph ([] : List (Nat × Int))).graph :=
  execution_preserves_graph.1 applyFn _ _
    (Relation.ReflTransGen.single
      (ExecStep.run ⟨zGraph, []⟩ 0 ⟨.finc, [.const 1]⟩ [1] rfl rfl rfl))

/-- C7: persistence and repartitioning preserve logical contents:
computing a persisted dataframe gives the same rows as computing the
original, and repartitioning holds exactly the same rows in the same
order - only the sharding granularity changes. -/
theorem persist_and_repartition_preserve :
    (∀ d : List DPart, computeDDF (persistDDF d) = computeDDF d) ∧
    (∀ (parts : List (List Row)) (n : Nat),
      (repartition parts n).flatten = parts.flatten) := by
  constructor
  · intro d
    unfold computeDDF persistDDF
    rw [List.map_map]
    apply congrArg
    apply List.map_congr_left
    intro p hp
    rfl
  · intro parts n
    exact chunkEvery_flatten _ _ _ (le_refl _)

/-- C8: no operation in the repository handles errors: when reading a
file fails inside the sequential spread loop, the error propagates
unchanged to the caller - nothing catches it, substitutes a default, or
records it. -/
theorem errors_propagate_unchanged :
    ∀ (readE : String → Except String (List Row)) (pre post : List String)
      (fn ex : String),
      (∀ f ∈ pre, ∃ df, readE f = .ok df) →
      readE fn = .error ex →
      spreadLoopE readE (pre ++ fn :: post) = .error ex := by
  intro readE pre
  induction pre with
  | nil =>
    intro post fn ex _ herr
    show spreadLoopE readE (fn :: post) = .error ex
    unfold spreadLoopE
    rw [herr]
  | cons f0 pre ih =>
    intro post fn ex hok herr
    obtain ⟨df0, hdf0⟩ := hok f0 (List.mem_cons_self f0 pre)
    have hok' : ∀ f ∈ pre, ∃ df, readE f = .ok df :=
      fun f hf => hok f (List.mem_cons_of_mem f0 hf)
    have hrest := ih post fn ex hok' herr
    show spreadLoopE readE (f0 :: (pre ++ fn :: post)) = .error ex
    unfold spreadLoopE
    rw [hdf0, hrest]

/-- Witness for C8: with one good file before it, the parse failure of
`"bad"` is returned unchanged. -/
theorem errors_propagate_unchanged_witness :
    (∀ f ∈ ["good"], ∃ df, readDemo f = .ok df) ∧
    readDemo "bad" = .error "parse" ∧
    spreadLoopE readDemo (["good"] ++ "bad" :: ["tail"]) = .error "parse" := by
  have hok : ∀ f ∈ ["good"], ∃ df, readDemo f = .ok df := by
    intro f hf
    have : f = "good" := by simpa using hf
    subst this
    exact ⟨[⟨1, 5, 2⟩], rfl⟩
  exact ⟨hok, rfl,
    errors_propagate_unchanged readDemo ["good"] ["tail"] "bad" "parse" hok rfl⟩

/-- C9: for every integer, `inc` returns `x + 1`, `add` returns
`x + y`, `double` returns `2 * x`, each after exactly a one-second
sleep and with no other effect in the model, and `iseven x` is true
exactly when `x` is divisible by 2. -/
theorem notebook_functions_correct :
    ∀ x y : Int,
      (inc x).val = x + 1 ∧ (inc x).secs = 1 ∧
      (add x y).val = x + y ∧ (add x y).secs = 1 ∧
      (double x).val = 2 * x ∧ (double x).secs = 1 ∧
      (iseven x = true ↔ (2 : Int) ∣ x) := by
  intro x y
  refine ⟨rfl, rfl, rfl, rfl, rfl, rfl, ?_⟩
  have h1 : iseven x = true ↔ x % 2 = 0 := by
    simp [iseven]
  rw [h1]
  exact Int.dvd_iff_emod_eq_zero.symm

/-- C10: after the sequential loop over the sorted filename list,
`spreads` and `days` both have one entry per file, and the i-th pair
(spread, day) is derived from the i-th filename in sorted order. -/
theorem spread_lists_aligned :
    ∀ (readF : String → List Row) (paths : List String),
      (spreadLoop readF (filenames paths)).1.length =
        (filenames paths).length ∧
      (spreadLoop readF (filenames paths)).2.length =
        (filenames paths).length ∧
      ∀ (i : Nat) (f : String), (filenames paths)[i]? = some f →
        (spreadLoop readF (filenames paths)).1[i]? =
          some (spreadOf (readF f)) ∧
        (spreadLoop readF (filenames paths)).2[i]? =
          some (dayOf (readF f)) :=
  fun readF paths => spreadLoop_aligned readF (filenames paths)

/-- Witness for C10 at a one-file directory. -/
theorem spread_lists_aligned_witness :
    (filenames ["a"])[0]? = some "a" ∧
    (spreadLoop readPlain (filenames ["a"])).1[0]? =
      some (spreadOf (readPlain "a")) := by
  have hf : filenames ["a"] = ["a"] := List.mergeSort_singleton "a"
  refine ⟨by rw [hf]; rfl, ?_⟩
  exact ((spread_lists_aligned readPlain ["a"]).2.2 0 "a" (by rw [hf]; rfl)).1

end DaskWorkshop

